import Mathlib

/-!
Shallow embedding of `src/core/csv_processor.py` (classes `FileProcessor`,
`DataMerger`, `DataSummarizer`, `DataFilter`) and proofs about the claims
of the specification.

Modelling conventions:
* A pandas `DataFrame` read from a CSV file is a `Table`: a header (list of
  column names) plus rows, each row a list of string cells aligned with the
  header.  Cells are kept in their textual form; `astype(str)` is the
  identity in this model.
* Calls into pandas' parser are abstracted by an oracle
  `tryRead : String → String → Option Table` ("parse the file with this
  encoding and delimiter; `none` means the parse raised", and in chunked
  mode "the first chunk could not be materialized").
* Python exceptions are modelled with `Option`/`Except`; a `try/except`
  block around a body is `Except.toBool`-style case analysis on the body.
-/

namespace CsvProc

/-- A table: named columns and rows of string cells aligned with the header. -/
structure Table where
  header : List String
  rows : List (List String)
deriving DecidableEq, Repr

/-- Cell of a row at a named column: the entry at the column's first index in
the header, empty when the column is absent (callers guard on membership). -/
def getCell (h : List String) (r : List String) (c : String) : String :=
  if c ∈ h then r.getD (h.indexOf c) "" else ""

/-! ### FileProcessor.read_csv_robust

The code tries encodings `['utf-8-sig','gbk','gb2312','utf-8','latin1']`
(or the single caller-supplied one when it is neither falsy nor `"auto"`),
and delimiters `[',', ';', '\t', '|', ' ']` likewise, in two nested loops
(outer over encodings), returning on the first pair whose parse does not
raise; if all fail it attempts utf-8 with comma and otherwise returns the
sentinel `(None, None, None)`. -/

/-- Default encoding candidates of `read_csv_robust`. -/
def defaultEncodings : List String := ["utf-8-sig", "gbk", "gb2312", "utf-8", "latin1"]

/-- Default delimiter candidates of `read_csv_robust`. -/
def defaultDelimiters : List String := [",", ";", "\t", "|", " "]

/-- Encodings to try: `[encoding] if encoding and encoding != "auto" else [...]`.
`none` and the empty string are falsy in Python. -/
def encodingsToTry (encoding : Option String) : List String :=
  match encoding with
  | some e => if e ≠ "" ∧ e ≠ "auto" then [e] else defaultEncodings
  | none => defaultEncodings

/-- Delimiters to try, same Python truthiness rule as `encodingsToTry`. -/
def delimitersToTry (delimiter : Option String) : List String :=
  match delimiter with
  | some d => if d ≠ "" ∧ d ≠ "auto" then [d] else defaultDelimiters
  | none => defaultDelimiters

/-- Inner loop of `read_csv_robust`: try each delimiter with a fixed encoding. -/
def tryDelims (tryRead : String → String → Option Table) (enc : String) :
    List String → Option (Table × String × String)
  | [] => none
  | d :: ds =>
    match tryRead enc d with
    | some t => some (t, enc, d)
    | none => tryDelims tryRead enc ds

/-- Outer loop of `read_csv_robust`: for each encoding, run the inner loop. -/
def tryPairs (tryRead : String → String → Option Table) :
    List String → List String → Option (Table × String × String)
  | [], _ => none
  | e :: es, ds =>
    match tryDelims tryRead e ds with
    | some r => some r
    | none => tryPairs tryRead es ds

/-- Embedding of `FileProcessor.read_csv_robust`: the candidate cascade, then
the last-resort utf-8/comma attempt, then the `(None, None, None)` sentinel. -/
def read_csv_robust (tryRead : String → String → Option Table)
    (encoding delimiter : Option String) :
    Option Table × Option String × Option String :=
  match tryPairs tryRead (encodingsToTry encoding) (delimitersToTry delimiter) with
  | some (t, e, d) => (some t, some e, some d)
  | none =>
    match tryRead "utf-8" "," with
    | some t => (some t, some "utf-8", some ",")
    | none => (none, none, none)

/-- First element of a list satisfying nothing in particular: generic
first-`some` over a list of candidates, used to state the cascade order. -/
def firstSome (f : α → Option β) : List α → Option β
  | [] => none
  | a :: l =>
    match f a with
    | some b => some b
    | none => firstSome f l

/-- Ordered Cartesian product with the outer loop over the first list. -/
def pairList (es ds : List String) : List (String × String) :=
  es.flatMap fun e => ds.map fun d => (e, d)

/-- One attempt of the cascade as a candidate function for `firstSome`. -/
def attempt (tryRead : String → String → Option Table) (p : String × String) :
    Option (Table × String × String) :=
  (tryRead p.1 p.2).map fun t => (t, p.1, p.2)

/-- Sample table used by the claims' witnesses. -/
def sampleSummaryTable : Table := ⟨["dept", "cost"], [["a", "1"], ["b", "2"], ["a", "3"]]⟩

/-- Sample data table used by the filter witnesses (spec example 3). -/
def sampleFilterTable : Table := ⟨["region", "v"], [["A", "1"], ["C", "2"], ["B", "3"]]⟩

/-- Sample tables used by the merge witnesses (spec example 1). -/
def sampleMergeTables : List Table :=
  [⟨["id", "amount"], [["1", "10"]]⟩, ⟨["id", "region"], [["2", "E"]]⟩]

/-- Oracle that parses only with gbk and tab, used by the cascade witness. -/
def succeedOnGbkTab : String → String → Option Table := fun e d =>
  if e = "gbk" ∧ d = "\t" then some sampleSummaryTable else none

/-- Oracle that parses only with utf-8 and comma, used for the last-resort
fallback theorems. -/
def succeedOnUtf8Comma : String → String → Option Table := fun e d =>
  if e = "utf-8" ∧ d = "," then some sampleSummaryTable else none

/-! ### FileProcessor.detect_encoding and detect_delimiter -/

/-- Outcome of the charset-detector call in `detect_encoding`: `none` when
reading the file raised, otherwise chardet's `(encoding, confidence)` result
(`result.get('encoding', 'utf-8')` defaults absent/None encodings; we keep the
possibly-missing encoding as an `Option String`). -/
def ChardetOutcome := Option (Option String × ℚ)

/-- Embedding of `FileProcessor.detect_encoding`: on I/O failure return
`"gbk"`; when chardet's confidence is below 0.7 return `"gbk"`, else the
detected name (`'utf-8'` when the key is absent). -/
def detect_encoding (outcome : Option (Option String × ℚ)) : Option String :=
  match outcome with
  | none => some "gbk"
  | some (enc, confidence) =>
    if confidence < 7/10 then some "gbk"
    else (match enc with | some e => some e | none => none)

/-- Candidate delimiters counted by `detect_delimiter`, in declaration order. -/
def candidateDelims : List Char := [',', ';', '\t', '|']

/-- Number of occurrences of a character in a string. -/
def countChar (s : String) (c : Char) : ℕ := s.data.count c

/-- Score of one candidate delimiter: `(count1 + count2) / 2` as in the code
(the second line contributes 0 when it is empty, which equals its count). -/
def delimScore (line1 line2 : String) (c : Char) : ℚ :=
  ((countChar line1 c : ℚ) + (countChar line2 c : ℚ)) / 2

/-- Python's `max(dict, key=dict.get)` over insertion order: scan the
candidates keeping the current best unless a later one is strictly greater. -/
def bestBy (score : Char → ℚ) (first : Char) (rest : List Char) : Char :=
  rest.foldl (fun best c => if score c > score best then c else best) first

/-- Embedding of `FileProcessor.detect_delimiter`: `none` input models an I/O
failure (caught, returning comma); otherwise the two sampled lines. -/
def detect_delimiter (lines : Option (String × String)) : Char :=
  match lines with
  | none => ','
  | some (line1, line2) =>
    let score := delimScore line1 line2
    let best := bestBy score ',' [';', '\t', '|']
    if score best > 0 then best else ','

/-! ### Numeric coercion of DataSummarizer

The code converts a sum column with
`pd.to_numeric(df[col].astype(str).str.replace(',', ''), errors='coerce').fillna(0)`:
strip thousands-separator commas from the string form, parse as a decimal
number, turn unparseable cells into 0.  We model the decimal parser on
character lists (optional leading minus, digits, at most one decimal point;
exponent notation and surrounding whitespace are not modelled), and the
numeric string form produced by `astype(str)` as `renderDec`. -/

/-- Decimal digit to its character. -/
def digitToChar : ℕ → Char
  | 0 => '0' | 1 => '1' | 2 => '2' | 3 => '3' | 4 => '4'
  | 5 => '5' | 6 => '6' | 7 => '7' | 8 => '8' | 9 => '9'
  | _ => '*'

/-- Character to decimal digit; 10 marks a non-digit. -/
def charToDigit : Char → ℕ
  | '0' => 0 | '1' => 1 | '2' => 2 | '3' => 3 | '4' => 4
  | '5' => 5 | '6' => 6 | '7' => 7 | '8' => 8 | '9' => 9
  | _ => 10

/-- Whether a character is a decimal digit. -/
def isDigitChar (c : Char) : Prop := charToDigit c < 10

instance (c : Char) : Decidable (isDigitChar c) := by
  unfold isDigitChar; infer_instance

/-- Value of a most-significant-first digit string. -/
def digitsVal (l : List Char) : ℕ :=
  l.foldl (fun a c => 10 * a + charToDigit c) 0

/-- Parse an unsigned decimal: returns `(n, e)` with value `n / 10^e`
(`e` the number of fractional digits), or `none` when malformed. -/
def parseUnsigned (l : List Char) : Option (ℕ × ℕ) :=
  if '.' ∈ l then
    let i := l.indexOf '.'
    let ip := l.take i
    let fp := l.drop (i + 1)
    if '.' ∈ fp then none
    else if ip ++ fp ≠ [] ∧ ∀ c ∈ ip ++ fp, isDigitChar c then
      some (digitsVal ip * 10 ^ fp.length + digitsVal fp, fp.length)
    else none
  else
    if l ≠ [] ∧ ∀ c ∈ l, isDigitChar c then some (digitsVal l, 0) else none

/-- Parse a signed decimal (optional leading minus). -/
def parseDec (l : List Char) : Option (ℤ × ℕ) :=
  if l.head? = some '-' then
    (parseUnsigned l.tail).map fun p => (-(p.1 : ℤ), p.2)
  else
    (parseUnsigned l).map fun p => ((p.1 : ℤ), p.2)

/-- Little-endian base-10 digits with explicit fuel (the number itself bounds
the digit count), so that digit extraction reduces inside the kernel. -/
def digitsFuel : ℕ → ℕ → List ℕ
  | 0, _ => []
  | _ + 1, 0 => []
  | fuel + 1, n + 1 => (n + 1) % 10 :: digitsFuel fuel ((n + 1) / 10)

/-- Most-significant-first digit characters of `n` (empty for 0). -/
def natChars (n : ℕ) : List Char := ((digitsFuel n n).map digitToChar).reverse

/-- Digit characters of `n` left-padded with zeros to at least `e + 1` digits. -/
def paddedChars (n e : ℕ) : List Char :=
  List.replicate (e + 1 - (natChars n).length) '0' ++ natChars n

/-- String form of an unsigned decimal `(n, e)` (value `n / 10^e`): the digit
string of `n` left-padded with zeros to at least `e + 1` digits, with a point
inserted before the last `e` digits when `e > 0`. -/
def renderUnsigned (n e : ℕ) : List Char :=
  if e = 0 then paddedChars n e
  else
    (paddedChars n e).take ((paddedChars n e).length - e) ++
      '.' :: (paddedChars n e).drop ((paddedChars n e).length - e)

/-- String form of a signed decimal, as `astype(str)` would show the number. -/
def renderDec : ℤ × ℕ → List Char
  | (m, e) => if m < 0 then '-' :: renderUnsigned m.natAbs e else renderUnsigned m.natAbs e

/-- The comma-stripping step `str.replace(',', '')`. -/
def stripCommas (l : List Char) : List Char := l.filter (· ≠ ',')

/-- The coercion to a decimal: parse after stripping commas, malformed to 0
(`errors='coerce'` plus `fillna(0)`). -/
def coerceDec (l : List Char) : ℤ × ℕ := (parseDec (stripCommas l)).getD (0, 0)

/-- Rational value of a decimal pair. -/
def decVal : ℤ × ℕ → ℚ
  | (m, e) => (m : ℚ) / 10 ^ e

/-- Numeric result of the coercion. -/
def coerceNum (l : List Char) : ℚ := decVal (coerceDec l)

/-! ### pandas dtype inference and astype(str)

When pandas parses a block of a CSV file it infers one dtype per column of
that block: a column whose cells all look like integers becomes int64, a
column whose cells are all numeric with some fractional form becomes
float64, anything else stays object (text).  `astype(str)` then renders the
typed values: int64 values print canonically (`"01"` becomes `"1"`),
float64 values print with a decimal point and no trailing fractional zeros
(`"1"` becomes `"1.0"`, `"1.50"` becomes `"1.5"`), object cells keep their
text.  Because chunked reading infers dtypes per chunk, the same cell can
render differently in chunked and whole-file modes.  Exponent forms, inf,
NaN and float64 rounding of long decimals are not modelled. -/

/-- Whether a cell looks numeric to the parser. -/
def isNumCell (s : String) : Bool := (parseDec s.data).isSome

/-- Whether a cell looks like an integer (numeric, no decimal point). -/
def isIntCell (s : String) : Bool := isNumCell s && decide ('.' ∉ s.data)

/-- The pandas dtypes the model distinguishes. -/
inductive Dtype
  | int64
  | float64
  | obj
deriving DecidableEq, Repr

/-- Dtype pandas infers for a block's column. -/
def columnDtype (cells : List String) : Dtype :=
  if cells.all isNumCell then
    if cells.all isIntCell then .int64 else .float64
  else .obj

/-- Strip trailing fractional zeros of a decimal (value preserved). -/
def normFloat : ℤ → ℕ → ℤ × ℕ
  | m, 0 => (m, 0)
  | m, e + 1 => if m % 10 = 0 then normFloat (m / 10) e else (m, e + 1)

/-- Decimal printed for a float64 value: trailing fractional zeros dropped,
but at least one fractional digit (`1` prints as `1.0`). -/
def floatDec (m : ℤ) (e : ℕ) : ℤ × ℕ :=
  match normFloat m e with
  | (m', 0) => (m' * 10, 1)
  | p => p

/-- The string `astype(str)` produces for one cell under a block dtype. -/
def renderCell (dt : Dtype) (s : String) : String :=
  match parseDec s.data with
  | none => s
  | some (m, e) =>
    match dt with
    | .obj => s
    | .int64 => String.mk (renderDec (m, 0))
    | .float64 => String.mk (renderDec (floatDec m e))

/-- The cells of one named column over a block's rows. -/
def colCells (h : List String) (c : String) (rows : List (List String)) : List String :=
  rows.map fun r => getCell h r c

/-- String form of a cell of column `c` within a block: dtype inference over
the block's column, then `astype(str)`. -/
def astypeStr (h : List String) (c : String) (rows : List (List String))
    (s : String) : String :=
  renderCell (columnDtype (colCells h c rows)) s

/-- A column whose `astype(str)` form cannot depend on how the rows are
blocked: all cells non-numeric (object everywhere), all integer-formed
(int64 everywhere), or all numeric with a decimal point (float64 in every
nonempty block). -/
def stableStrColumn (cells : List String) : Prop :=
  (∀ s ∈ cells, isNumCell s = false) ∨ (∀ s ∈ cells, isIntCell s = true) ∨
  (∀ s ∈ cells, isNumCell s = true ∧ '.' ∈ s.data)

instance (cells : List String) : Decidable (stableStrColumn cells) := by
  unfold stableStrColumn
  infer_instance

/-! ### DataSummarizer

Rows are sliced into consecutive chunks of the configured size; each block is
grouped and summed, and in chunked mode the per-chunk grouped results are
folded by `pd.merge(result, chunk_result, on=group_col, how='outer')`
followed by `fillna(0)` addition of each sum column and dropping the helper
`_new` columns.  Group keys are the string forms of the grouping column
(`astype(str)` after the block's dtype inference).  `groupby` sorts the
group keys; the claims compare grouped results only up to row order, so the
model lists keys in first-occurrence order instead. -/

/-- Consecutive chunks of `k` rows (`k` is forced positive; pandas chunk
readers only exist for a positive `chunksize`). -/
def chunkList (k : ℕ) (l : List α) : List (List α) :=
  match l with
  | [] => []
  | a :: l' => (a :: l').take (max k 1) :: chunkList k ((a :: l').drop (max k 1))
termination_by l.length
decreasing_by
  simp only [List.length_drop, List.length_cons]
  omega

/-- Group key of a row within a block: the grouping column's string form
after the block's dtype inference (`chunk[group_col].astype(str)`). -/
def gkeyB (h : List String) (g : String) (rows : List (List String))
    (r : List String) : String :=
  astypeStr h g rows (getCell h r g)

/-- Numeric value a row contributes to a sum column within a block: the
coerced string form of the cell when the column is present, else the
filled-in zero (`chunk[col] = 0`). -/
def numValB (h : List String) (c : String) (rows : List (List String))
    (r : List String) : ℚ :=
  if c ∈ h then coerceNum (astypeStr h c rows (getCell h r c)).data else 0

/-- First-occurrence deduplication, the key order of the model's grouped
tables. -/
def dedupF : List String → List String
  | [] => []
  | x :: xs => x :: (dedupF xs).filter (· ≠ x)

/-- Total over one group, for an abstract row-key and row-value function. -/
def groupTotalF (keyf : List String → String) (valf : List String → ℚ)
    (key : String) (rows : List (List String)) : ℚ :=
  ((rows.filter fun r => keyf r = key).map valf).sum

/-- Grouped sum of a block for abstract key/value functions: one pair per
distinct key, with one total per sum column. -/
def groupedSumF (keyf : List String → String) (valf : String → List String → ℚ)
    (sumCols : List String) (rows : List (List String)) : List (String × List ℚ) :=
  (dedupF (rows.map keyf)).map fun key =>
    (key, sumCols.map fun c => groupTotalF keyf (valf c) key rows)

/-- Total of one sum column over the rows of one group of a block. -/
def groupTotal (h : List String) (g c key : String) (rows : List (List String)) : ℚ :=
  groupTotalF (gkeyB h g rows) (numValB h c rows) key rows

/-- Grouped sum of one block:
`chunk.groupby(group_col, as_index=False)[sum_cols].sum()` as a list of
(group key, per-sum-column totals) pairs, the keys and coerced values taken
after the block's own dtype inference. -/
def groupedSum (h : List String) (g : String) (sumCols : List String)
    (rows : List (List String)) : List (String × List ℚ) :=
  groupedSumF (gkeyB h g rows) (fun c => numValB h c rows) sumCols rows

/-- Totals of a grouped table at a key, zero-filled when the key is absent
(the `fillna(0)` halves of the chunk fold). -/
def lookupTotals (t : List (String × List ℚ)) (key : String) (k : ℕ) : List ℚ :=
  (t.lookup key).getD (List.replicate k 0)

/-- One fold step of `_process_in_chunks`: outer-join the running result with
the chunk result on the group key, add the zero-filled sum columns, drop the
join's helper columns.  (pandas may order the joined keys differently; the
claims compare results up to row order.) -/
def mergeOuter (k : ℕ) (run new : List (String × List ℚ)) : List (String × List ℚ) :=
  (run.map Prod.fst ++ (new.map Prod.fst).filter (· ∉ run.map Prod.fst)).map fun key =>
    (key, List.zipWith (· + ·) (lookupTotals run key k) (lookupTotals new key k))

/-- Error message of `_process_entire_file` for a missing grouping column. -/
def groupColFileErr (g : String) : String := "分组列 '" ++ g ++ "' 不存在于文件中。"

/-- Error message of `_process_in_chunks` for a missing grouping column. -/
def groupColChunkErr (g : String) : String := "分组列 '" ++ g ++ "' 不存在于当前数据块中。"

/-- Embedding of `DataSummarizer._process_entire_file` (the read itself is
abstracted away: `t` is the table the reader produced): raise when the
grouping column is absent, otherwise group and sum the whole table. -/
def process_entire_file (t : Table) (g : String) (sumCols : List String) :
    Except String (List (String × List ℚ)) :=
  if g ∈ t.header then .ok (groupedSum t.header g sumCols t.rows)
  else .error (groupColFileErr g)

/-- Chunk loop of `_process_in_chunks`: `result` starts as `None`, each chunk
checks the grouping column, groups, and is folded into the running result. -/
def processChunksLoop (h : List String) (g : String) (sumCols : List String) :
    Option (List (String × List ℚ)) → List (List (List String)) →
      Except String (Option (List (String × List ℚ)))
  | res, [] => .ok res
  | res, chunk :: rest =>
    if g ∈ h then
      let chunkResult := groupedSum h g sumCols chunk
      match res with
      | none => processChunksLoop h g sumCols (some chunkResult) rest
      | some r => processChunksLoop h g sumCols (some (mergeOuter sumCols.length r chunkResult)) rest
    else .error (groupColChunkErr g)

/-- Embedding of `DataSummarizer._process_in_chunks`: slice the rows into
chunks of `chunkSize` and fold them; the result is `none` when no chunk was
produced (an empty file). -/
def process_in_chunks (t : Table) (g : String) (sumCols : List String)
    (chunkSize : ℕ) : Except String (Option (List (String × List ℚ))) :=
  processChunksLoop t.header g sumCols none (chunkList chunkSize t.rows)

/-! ### DataFilter

The filter reads an allow-list of string values and keeps the rows of the
data file whose filter-column value (coerced to string; identity on our
textual cells) is a member.  Chunked mode uses a fixed internal chunk size
of 10000 rows, collects the non-empty filtered chunks and concatenates
them in source order. -/

/-- Error message of `_filter_entire_file` for a missing filter column. -/
def filterColFileErr (c : String) : String := "筛选列 '" ++ c ++ "' 不存在于数据文件中。"

/-- Error message of `_filter_in_chunks` for a missing filter column. -/
def filterColChunkErr (c : String) : String := "筛选列 '" ++ c ++ "' 不存在于当前数据块中。"

/-- Filtering of one block: the code overwrites the filter column with its
`astype(str)` form (after the block's dtype inference) and keeps the rows
whose value is a member of the allow-list, so the kept rows carry the
rendered filter column. -/
def filterBlock (h : List String) (c : String) (S : List String)
    (block : List (List String)) : List (List String) :=
  (block.filter fun r =>
      renderCell (columnDtype (colCells h c block)) (getCell h r c) ∈ S).map fun r =>
    r.set (h.indexOf c) (renderCell (columnDtype (colCells h c block)) (getCell h r c))

/-- Embedding of `DataFilter._filter_entire_file`: raise when the filter
column is absent, else filter the whole table as one block. -/
def filter_entire_file (t : Table) (c : String) (S : List String) :
    Except String (List (List String)) :=
  if c ∈ t.header then .ok (filterBlock t.header c S t.rows)
  else .error (filterColFileErr c)

/-- Chunk loop of `_filter_in_chunks`: per chunk, check the filter column,
filter the chunk as a block, and collect the non-empty filtered chunks in
order. -/
def filterChunksLoop (h : List String) (c : String) (S : List String) :
    List (List (List String)) → Except String (List (List (List String)))
  | [] => .ok []
  | chunk :: rest =>
    if c ∈ h then
      match filterChunksLoop h c S rest with
      | .ok acc =>
        .ok (if filterBlock h c S chunk = [] then acc
             else filterBlock h c S chunk :: acc)
      | .error e => .error e
    else .error (filterColChunkErr c)

/-- The fixed chunk size of `_filter_in_chunks`. -/
def filterChunkSize : ℕ := 10000

/-- Embedding of `DataFilter._filter_in_chunks`: slice into 10000-row chunks,
filter each, concatenate the kept chunks (`pd.concat`, or an empty table when
nothing matched). -/
def filter_in_chunks (t : Table) (c : String) (S : List String) :
    Except String (List (List String)) :=
  match filterChunksLoop t.header c S (chunkList filterChunkSize t.rows) with
  | .ok kept => .ok kept.flatten
  | .error e => .error e

/-- Table whose grouping column mixes integer-formed and fractional cells,
the shape on which per-chunk dtype inference changes the group keys. -/
def varianceTable : Table := ⟨["dept", "cost"], [["1", "10"], ["1", "20"], ["2.5", "30"]]⟩

/-- Data file with 10000 integer-formed cells followed by one fractional
cell: the 10000-row internal filter chunk is typed int64 while the whole
file is typed float64. -/
def bigFilterTable : Table := ⟨["region"], List.replicate 10000 ["1"] ++ [["2.5"]]⟩

/-- Group keys the chunked summarizer produces (`none` on error). -/
def summaryKeysChunked (t : Table) (g : String) (S : List String) (k : ℕ) :
    Option (List String) :=
  match process_in_chunks t g S k with
  | .ok (some l) => some (l.map Prod.fst)
  | .ok none => some []
  | .error _ => none

/-- Group keys the whole-file summarizer produces (`none` on error). -/
def summaryKeysWhole (t : Table) (g : String) (S : List String) :
    Option (List String) :=
  match process_entire_file t g S with
  | .ok l => some (l.map Prod.fst)
  | .error _ => none

/-- Number of rows a filter outcome retained (`none` on error). -/
def filterLen (r : Except String (List (List String))) : Option ℕ :=
  match r with
  | .ok l => some l.length
  | .error _ => none

/-! ### DataMerger

`merge_files` resolves encoding and delimiter from the first file, collects
the union of all files' columns (sorted), and streams every readable file's
blocks into the output after reconciling each block with the unified schema;
the first written block carries the header.  The files are represented by
their read outcomes (`none` = the reader's total-failure sentinel for that
file), and writes are collected into a log of (wroteHeader, block) pairs. -/

/-- Lexicographic code-point comparison of character lists: `sorted` strings
in Python compare exactly this way. -/
def leChars : List Char → List Char → Bool
  | [], _ => true
  | _ :: _, [] => false
  | a :: as, b :: bs =>
    if a.toNat < b.toNat then true
    else if b.toNat < a.toNat then false
    else leChars as bs

/-- Python's string order: lexicographic by code point. -/
def strLe (a b : String) : Prop := leChars a.data b.data = true

instance instDecidableRelStrLe : DecidableRel strLe := fun a b =>
  inferInstanceAs (Decidable (leChars a.data b.data = true))

/-- Embedding of `DataMerger._collect_all_columns`: the union of the columns
of every readable file, as a lexicographically sorted list (`sorted(set)`). -/
def collect_all_columns (reads : List (Option Table)) : List String :=
  List.insertionSort strLe (((reads.filterMap id).map Table.header).flatten.dedup)

/-- Embedding of `DataMerger._process_chunk`: add each unified column missing
from the block with empty-string cells, then reindex to the unified column
order. -/
def merge_process_chunk (allCols : List String) (t : Table) : Table :=
  ⟨allCols, t.rows.map fun r => allCols.map fun col =>
    if col ∈ t.header then getCell t.header r col else ""⟩

/-- File loop of `DataMerger._do_merge`: skip unreadable files, write each
readable file's block, only the first written block with a header. -/
def doMergeLoop (allCols : List String) : Bool → List (Option Table) → List (Bool × Table)
  | _, [] => []
  | flag, none :: rest => doMergeLoop allCols flag rest
  | flag, some t :: rest =>
    (flag, merge_process_chunk allCols t) :: doMergeLoop allCols false rest

/-- Body of `DataMerger.merge_files` before its top-level `except`:
`file_paths[0]` raises `IndexError("list index out of range")` on an empty
list, before anything is written to the output path. -/
def mergeFilesBody (reads : List (Option Table)) :
    Except String ((Bool × String) × List (Bool × Table)) :=
  match reads.head? with
  | none => .error "list index out of range"
  | some _ =>
    if collect_all_columns reads = [] then .ok ((false, "无法解析文件列信息"), [])
    else .ok ((true, "合并完成！"), doMergeLoop (collect_all_columns reads) true reads)

/-- Embedding of `DataMerger.merge_files`: the body's exceptions are caught
and turned into a `(False, "合并失败: …")` result with nothing written. -/
def merge_files (reads : List (Option Table)) : (Bool × String) × List (Bool × Table) :=
  match mergeFilesBody reads with
  | .ok r => r
  | .error e => ((false, "合并失败: " ++ e), [])

/-! ### Progress callback traces

The percentage arguments passed to `progress_callback` over one operation,
in order, as functions of the shape of the run (file count, per-file chunk
counts).  `int(i/total*20)` and the like are exact `ℕ` division here (the
Python floats involved are small enough to be exact). -/

/-- Percentages emitted by `_collect_all_columns` over `total` files. -/
def collectColumnsTrace (total : ℕ) : List ℕ :=
  (List.range total).map fun i => 10 + i * 20 / total

/-- Percentages emitted by `_do_merge`: per file the base progress, then (in
chunked mode) one capped value per chunk; `cs` lists each file's chunk
count. -/
def doMergeTrace (total : ℕ) (chunked : Bool) (cs : List ℕ) : List ℕ :=
  (List.range cs.length).flatMap fun i =>
    (30 + i * 60 / total) ::
      (if chunked then
        (List.range (cs.getD i 0)).map fun j => min 90 (30 + i * 60 / total + (j + 1) * 5)
      else [])

/-- Percentages of a successful `merge_files` run over `cs.length` files. -/
def mergeTrace (cs : List ℕ) (chunked : Bool) : List ℕ :=
  5 :: 10 :: (collectColumnsTrace cs.length ++
    30 :: (doMergeTrace cs.length chunked cs ++ [95]))

/-- Percentages of a whole-file `summarize` run. -/
def summarizeWholeTrace (descending : Bool) : List ℕ :=
  [5, 30, 60, 80] ++ if descending then [96] else []

/-- Percentages of a chunked `summarize` run over `numChunks` chunks. -/
def summarizeChunkedTrace (numChunks : ℕ) (descending : Bool) : List ℕ :=
  5 :: 10 :: (((List.range numChunks).map fun j => min 90 (10 + (j + 1) * 5)) ++
    if descending then [96] else [])

/-- Percentages of a whole-file `filter_data` run (the 95 callback exists
only on the chunked path). -/
def filterWholeTrace : List ℕ := [5, 20, 30, 40, 70]

/-- Percentages of a chunked `filter_data` run over `numChunks` chunks. -/
def filterChunkedTrace (numChunks : ℕ) : List ℕ :=
  5 :: 20 :: 30 :: (((List.range numChunks).map fun j => min 90 (30 + (j + 1) * 3)) ++ [95])

/-! ### Lemmas and claim theorems -/

theorem tryDelims_eq_firstSome (tryRead : String → String → Option Table)
    (enc : String) (ds : List String) :
    tryDelims tryRead enc ds =
      firstSome (attempt tryRead) (ds.map fun d => (enc, d)) := by
  induction ds with
  | nil => rfl
  | cons d ds ih =>
    simp only [tryDelims, List.map_cons, firstSome, attempt, Option.map]
    cases tryRead enc d with
    | none => exact ih
    | some t => rfl

theorem firstSome_append (f : α → Option β) (l₁ l₂ : List α) :
    firstSome f (l₁ ++ l₂) =
      match firstSome f l₁ with
      | some b => some b
      | none => firstSome f l₂ := by
  induction l₁ with
  | nil => rfl
  | cons a l ih =>
    simp only [List.cons_append, firstSome]
    cases f a with
    | none => exact ih
    | some b => rfl

theorem tryPairs_eq_firstSome (tryRead : String → String → Option Table)
    (es ds : List String) :
    tryPairs tryRead es ds = firstSome (attempt tryRead) (pairList es ds) := by
  induction es with
  | nil => rfl
  | cons e es ih =>
    simp only [tryPairs, pairList, List.flatMap_cons, firstSome_append]
    rw [← tryDelims_eq_firstSome]
    cases tryDelims tryRead e ds with
    | none => exact ih
    | some r => rfl

/-- When `f` fails on every element, `firstSome` is `none`, and conversely. -/
theorem firstSome_eq_none_iff (f : α → Option β) (l : List α) :
    firstSome f l = none ↔ ∀ a ∈ l, f a = none := by
  induction l with
  | nil => simp [firstSome]
  | cons a l ih =>
    simp only [firstSome, List.mem_cons]
    cases h : f a with
    | some b => simp [h]
    | none =>
      simp only [h]
      constructor
      · intro hn x hx
        rcases hx with rfl | hx
        · exact h
        · exact ih.mp hn x hx
      · intro hall
        exact ih.mpr fun x hx => hall x (Or.inr hx)

theorem bestBy_eq_first_of_all_le (score : Char → ℚ) (first : Char)
    (rest : List Char) (h : ∀ c ∈ rest, score c ≤ score first) :
    bestBy score first rest = first := by
  induction rest with
  | nil => rfl
  | cons c cs ih =>
    simp only [bestBy, List.foldl_cons]
    have hc : ¬ score c > score first := not_lt.mpr (h c (List.mem_cons_self c cs))
    rw [if_neg hc]
    exact ih fun x hx => h x (List.mem_cons_of_mem c hx)

theorem charToDigit_digitToChar {d : ℕ} (h : d < 10) :
    charToDigit (digitToChar d) = d := by
  interval_cases d <;> rfl

theorem isDigitChar_digitToChar {d : ℕ} (h : d < 10) : isDigitChar (digitToChar d) := by
  unfold isDigitChar
  rw [charToDigit_digitToChar h]
  exact h

theorem foldl_digitsVal (l : List Char) (a : ℕ) :
    l.foldl (fun a c => 10 * a + charToDigit c) a =
      a * 10 ^ l.length + digitsVal l := by
  induction l generalizing a with
  | nil => simp [digitsVal]
  | cons c t ih =>
    simp only [List.foldl_cons, digitsVal, List.length_cons]
    rw [ih, ih (10 * 0 + charToDigit c)]
    ring

theorem digitsVal_append (l₁ l₂ : List Char) :
    digitsVal (l₁ ++ l₂) = digitsVal l₁ * 10 ^ l₂.length + digitsVal l₂ := by
  unfold digitsVal
  rw [List.foldl_append, foldl_digitsVal]
  rfl

theorem digitsVal_replicate_zero (k : ℕ) :
    digitsVal (List.replicate k '0') = 0 := by
  induction k with
  | zero => rfl
  | succ n ih =>
    rw [List.replicate_succ]
    show digitsVal ([ '0' ] ++ List.replicate n '0') = 0
    rw [digitsVal_append, ih]
    simp [show digitsVal [ '0' ] = 0 from rfl]

theorem digitsFuel_eq_digits (fuel n : ℕ) (h : n ≤ fuel) :
    digitsFuel fuel n = Nat.digits 10 n := by
  induction fuel generalizing n with
  | zero =>
    interval_cases n
    simp [digitsFuel]
  | succ fuel ih =>
    cases n with
    | zero => simp [digitsFuel]
    | succ m =>
      rw [digitsFuel, Nat.digits_def' (by norm_num : (1:ℕ) < 10) (Nat.succ_pos m)]
      congr 1
      exact ih _ (by
        have := Nat.div_lt_self (Nat.succ_pos m) (by norm_num : (1:ℕ) < 10)
        omega)

theorem natChars_eq_digits (n : ℕ) :
    natChars n = ((Nat.digits 10 n).map digitToChar).reverse := by
  unfold natChars
  rw [digitsFuel_eq_digits n n le_rfl]

theorem digitsVal_natChars (n : ℕ) : digitsVal (natChars n) = n := by
  rw [natChars_eq_digits]
  have key : ∀ L : List ℕ, (∀ d ∈ L, d < 10) →
      digitsVal ((L.map digitToChar).reverse) = Nat.ofDigits 10 L := by
    intro L
    induction L with
    | nil => intro _; rfl
    | cons d t ih =>
      intro hall
      have hd : d < 10 := hall d (List.mem_cons_self d t)
      simp only [List.map_cons, List.reverse_cons]
      rw [digitsVal_append, Nat.ofDigits_cons,
        ih fun x hx => hall x (List.mem_cons_of_mem d hx)]
      show Nat.ofDigits 10 t * 10 ^ 1 + digitsVal [digitToChar d] = d + 10 * Nat.ofDigits 10 t
      unfold digitsVal
      simp only [List.foldl_cons, List.foldl_nil]
      rw [charToDigit_digitToChar hd]
      ring
  rw [key _ fun d hd => Nat.digits_lt_base (by norm_num) hd, Nat.ofDigits_digits]

theorem mem_natChars {c : Char} {n : ℕ} (h : c ∈ natChars n) : isDigitChar c := by
  rw [natChars_eq_digits] at h
  rw [List.mem_reverse, List.mem_map] at h
  obtain ⟨d, hd, rfl⟩ := h
  exact isDigitChar_digitToChar (Nat.digits_lt_base (by norm_num) hd)

theorem mem_paddedChars {c : Char} {n e : ℕ} (h : c ∈ paddedChars n e) :
    isDigitChar c := by
  unfold paddedChars at h
  rw [List.mem_append] at h
  rcases h with h | h
  · rw [List.eq_of_mem_replicate h]
    decide
  · exact mem_natChars h

theorem digitsVal_paddedChars (n e : ℕ) : digitsVal (paddedChars n e) = n := by
  unfold paddedChars
  rw [digitsVal_append, digitsVal_replicate_zero, digitsVal_natChars]
  ring

theorem length_paddedChars (n e : ℕ) :
    (paddedChars n e).length = max (e + 1) (natChars n).length := by
  unfold paddedChars
  rw [List.length_append, List.length_replicate, Nat.sub_add_eq_max]

theorem length_paddedChars_ge (n e : ℕ) : e + 1 ≤ (paddedChars n e).length := by
  rw [length_paddedChars]; exact le_max_left _ _

theorem dot_not_mem_paddedChars (n e : ℕ) : '.' ∉ paddedChars n e := by
  intro h
  have := mem_paddedChars h
  revert this
  decide

theorem paddedChars_ne_nil (n e : ℕ) : paddedChars n e ≠ [] := by
  intro h
  have := length_paddedChars_ge n e
  rw [h] at this
  simp at this

theorem parseUnsigned_renderUnsigned (n e : ℕ) :
    parseUnsigned (renderUnsigned n e) = some (n, e) := by
  by_cases he : e = 0
  · subst he
    rw [renderUnsigned, if_pos rfl, parseUnsigned,
      if_neg (dot_not_mem_paddedChars n 0),
      if_pos ⟨paddedChars_ne_nil n 0, fun c hc => mem_paddedChars hc⟩,
      digitsVal_paddedChars]
  · rw [renderUnsigned, if_neg he]
    have hge := length_paddedChars_ge n e
    have hdot := dot_not_mem_paddedChars n e
    have hnil := paddedChars_ne_nil n e
    have hvalP := digitsVal_paddedChars n e
    have hmemP : ∀ c ∈ paddedChars n e, isDigitChar c := fun _ hc => mem_paddedChars hc
    set P := paddedChars n e with hP
    set i := P.length - e with hi
    have hiP : i ≤ P.length := Nat.sub_le _ _
    have hipos : 1 ≤ i := by omega
    set ip := P.take i with hip
    set fp := P.drop i with hfp
    have hipfp : ip ++ fp = P := List.take_append_drop i P
    have hlip : ip.length = i := List.length_take_of_le hiP
    have hlfp : fp.length = e := by
      rw [hfp, List.length_drop]
      omega
    have hdotip : '.' ∉ ip := fun h =>
      hdot (hipfp ▸ List.mem_append_left fp h)
    have hdotfp : '.' ∉ fp := fun h =>
      hdot (hipfp ▸ List.mem_append_right ip h)
    have hmem : '.' ∈ ip ++ '.' :: fp := List.mem_append_right ip (List.mem_cons_self _ _)
    rw [parseUnsigned, if_pos hmem]
    have hidx : (ip ++ '.' :: fp).indexOf '.' = ip.length := by
      rw [List.indexOf_append_of_not_mem hdotip, List.indexOf_cons_self]
      ring
    have htake : (ip ++ '.' :: fp).take ((ip ++ '.' :: fp).indexOf '.') = ip := by
      rw [hidx]; exact List.take_left ip ('.' :: fp)
    have hdrop : (ip ++ '.' :: fp).drop ((ip ++ '.' :: fp).indexOf '.' + 1) = fp := by
      rw [hidx]
      have h1 : ip.length + 1 = (ip ++ ['.']).length := by simp
      rw [h1, show ip ++ '.' :: fp = (ip ++ ['.']) ++ fp by simp]
      exact List.drop_left (ip ++ ['.']) fp
    simp only [htake, hdrop]
    rw [if_neg hdotfp]
    have hne : ip ++ fp ≠ [] := by
      rw [hipfp]; exact hnil
    have hall : ∀ c ∈ ip ++ fp, isDigitChar c := by
      intro c hc
      exact hmemP c (hipfp ▸ hc)
    rw [if_pos ⟨hne, hall⟩]
    have hval : digitsVal ip * 10 ^ fp.length + digitsVal fp = n := by
      rw [← digitsVal_append, hipfp]
      exact hvalP
    rw [hval, hlfp]

theorem head_renderUnsigned_ne_minus (n e : ℕ) :
    (renderUnsigned n e).head? ≠ some '-' := by
  intro h
  have hmem : '-' ∈ renderUnsigned n e := by
    cases hl : renderUnsigned n e with
    | nil => rw [hl] at h; simp at h
    | cons a t =>
      rw [hl] at h
      simp only [List.head?_cons, Option.some.injEq] at h
      rw [h] at hl ⊢
      exact List.mem_cons_self _ _
  rw [renderUnsigned] at hmem
  by_cases he : e = 0
  · rw [if_pos he] at hmem
    have := mem_paddedChars hmem
    revert this; decide
  · rw [if_neg he] at hmem
    rw [List.mem_append, List.mem_cons] at hmem
    rcases hmem with h1 | h1 | h1
    · exact absurd (mem_paddedChars (List.mem_of_mem_take h1)) (by decide)
    · exact absurd h1 (by decide)
    · exact absurd (mem_paddedChars (List.mem_of_mem_drop h1)) (by decide)

theorem parseDec_renderDec (d : ℤ × ℕ) : parseDec (renderDec d) = some d := by
  obtain ⟨m, e⟩ := d
  by_cases hm : m < 0
  · rw [renderDec, if_pos hm, parseDec,
      if_pos (show ('-' :: renderUnsigned m.natAbs e).head? = some '-' from rfl)]
    show (parseUnsigned (renderUnsigned m.natAbs e)).map _ = _
    rw [parseUnsigned_renderUnsigned, Option.map_some']
    simp only [Option.some.injEq, Prod.mk.injEq]
    exact ⟨by rw [Int.ofNat_natAbs_of_nonpos (le_of_lt hm)]; ring, trivial⟩
  · rw [renderDec, if_neg hm, parseDec, if_neg (head_renderUnsigned_ne_minus m.natAbs e),
      parseUnsigned_renderUnsigned, Option.map_some']
    simp only [Option.some.injEq, Prod.mk.injEq]
    exact ⟨by rw [Int.natAbs_of_nonneg (not_lt.mp hm)], trivial⟩

theorem comma_not_mem_renderDec (d : ℤ × ℕ) : ',' ∉ renderDec d := by
  obtain ⟨m, e⟩ := d
  intro h
  have hmem : ',' ∈ renderUnsigned m.natAbs e := by
    rw [renderDec] at h
    by_cases hm : m < 0
    · rw [if_pos hm, List.mem_cons] at h
      rcases h with h | h
      · exact absurd h (by decide)
      · exact h
    · rw [if_neg hm] at h; exact h
  rw [renderUnsigned] at hmem
  by_cases he : e = 0
  · rw [if_pos he] at hmem
    exact absurd (mem_paddedChars hmem) (by decide)
  · rw [if_neg he] at hmem
    rw [List.mem_append, List.mem_cons] at hmem
    rcases hmem with h1 | h1 | h1
    · exact absurd (mem_paddedChars (List.mem_of_mem_take h1)) (by decide)
    · exact absurd h1 (by decide)
    · exact absurd (mem_paddedChars (List.mem_of_mem_drop h1)) (by decide)

theorem stripCommas_renderDec (d : ℤ × ℕ) : stripCommas (renderDec d) = renderDec d := by
  unfold stripCommas
  rw [List.filter_eq_self]
  intro c hc
  simp only [decide_eq_true_eq]
  intro h
  exact comma_not_mem_renderDec d (h ▸ hc)

theorem coerceNum_renderDec (d : ℤ × ℕ) : coerceNum (renderDec d) = decVal d := by
  unfold coerceNum coerceDec
  rw [stripCommas_renderDec, parseDec_renderDec]
  rfl

theorem indexOf_split {l : List Char} (hdot : '.' ∈ l) :
    l = l.take (l.indexOf '.') ++ '.' :: l.drop (l.indexOf '.' + 1) := by
  have hlt : l.indexOf '.' < l.length := List.indexOf_lt_length.mpr hdot
  conv_lhs => rw [← List.take_append_drop (l.indexOf '.') l]
  congr 1
  rw [List.drop_eq_getElem_cons hlt]
  congr 1
  exact List.getElem_indexOf hlt

theorem no_comma_of_parseUnsigned {l : List Char} {p : ℕ × ℕ}
    (hp : parseUnsigned l = some p) : ',' ∉ l := by
  unfold parseUnsigned at hp
  by_cases hdot : '.' ∈ l
  · rw [if_pos hdot] at hp
    by_cases hfp : '.' ∈ l.drop (l.indexOf '.' + 1)
    · rw [if_pos hfp] at hp
      exact absurd hp (by simp)
    · rw [if_neg hfp] at hp
      by_cases hcond : l.take (l.indexOf '.') ++ l.drop (l.indexOf '.' + 1) ≠ [] ∧
          ∀ ch ∈ l.take (l.indexOf '.') ++ l.drop (l.indexOf '.' + 1), isDigitChar ch
      · rw [if_pos hcond] at hp
        intro hcomma
        rw [indexOf_split hdot] at hcomma
        rcases List.mem_append.mp hcomma with h1 | h1
        · have := hcond.2 ',' (List.mem_append_left _ h1)
          revert this
          decide
        · rcases List.mem_cons.mp h1 with h2 | h2
          · exact absurd h2 (by decide)
          · have := hcond.2 ',' (List.mem_append_right _ h2)
            revert this
            decide
      · rw [if_neg hcond] at hp
        exact absurd hp (by simp)
  · rw [if_neg hdot] at hp
    by_cases hcond : l ≠ [] ∧ ∀ ch ∈ l, isDigitChar ch
    · rw [if_pos hcond] at hp
      intro hcomma
      have := hcond.2 ',' hcomma
      revert this
      decide
    · rw [if_neg hcond] at hp
      exact absurd hp (by simp)

theorem no_comma_of_parseDec {l : List Char} {d : ℤ × ℕ}
    (hp : parseDec l = some d) : ',' ∉ l := by
  unfold parseDec at hp
  by_cases hh : l.head? = some '-'
  · rw [if_pos hh] at hp
    obtain ⟨p, hp1, -⟩ := Option.map_eq_some'.mp hp
    have htail : ',' ∉ l.tail := no_comma_of_parseUnsigned hp1
    cases l with
    | nil => simp at hh
    | cons a t =>
      simp only [List.head?_cons, Option.some.injEq] at hh
      subst hh
      intro hmem
      rcases List.mem_cons.mp hmem with h1 | h1
      · exact absurd h1 (by decide)
      · exact htail h1
  · rw [if_neg hh] at hp
    obtain ⟨p, hp1, -⟩ := Option.map_eq_some'.mp hp
    exact no_comma_of_parseUnsigned hp1

theorem stripCommas_of_parseDec {l : List Char} {d : ℤ × ℕ}
    (hp : parseDec l = some d) : stripCommas l = l := by
  unfold stripCommas
  rw [List.filter_eq_self]
  intro c hc
  simp only [decide_eq_true_eq]
  intro h
  exact no_comma_of_parseDec hp (h ▸ hc)

theorem coerceNum_of_parseDec {l : List Char} {d : ℤ × ℕ}
    (hp : parseDec l = some d) : coerceNum l = decVal d := by
  unfold coerceNum coerceDec
  rw [stripCommas_of_parseDec hp, hp]
  rfl

theorem parseUnsigned_no_dot {l : List Char} (hd : '.' ∉ l) {p : ℕ × ℕ}
    (hp : parseUnsigned l = some p) : p.2 = 0 := by
  unfold parseUnsigned at hp
  rw [if_neg hd] at hp
  by_cases hcond : l ≠ [] ∧ ∀ ch ∈ l, isDigitChar ch
  · rw [if_pos hcond] at hp
    cases hp
    rfl
  · rw [if_neg hcond] at hp
    exact absurd hp (by simp)

theorem parseDec_no_dot {l : List Char} (hd : '.' ∉ l) {m : ℤ} {e : ℕ}
    (hp : parseDec l = some (m, e)) : e = 0 := by
  unfold parseDec at hp
  by_cases hh : l.head? = some '-'
  · rw [if_pos hh] at hp
    obtain ⟨p, hp1, hp2⟩ := Option.map_eq_some'.mp hp
    have htail : '.' ∉ l.tail := fun hmem => hd ((List.tail_sublist l).subset hmem)
    have hz : p.2 = 0 := parseUnsigned_no_dot htail hp1
    rw [Prod.mk.injEq] at hp2
    rw [← hp2.2, hz]
  · rw [if_neg hh] at hp
    obtain ⟨p, hp1, hp2⟩ := Option.map_eq_some'.mp hp
    have hz : p.2 = 0 := parseUnsigned_no_dot hd hp1
    rw [Prod.mk.injEq] at hp2
    rw [← hp2.2, hz]

theorem normFloat_val (e : ℕ) (m : ℤ) : decVal (normFloat m e) = decVal (m, e) := by
  induction e generalizing m with
  | zero => rfl
  | succ e ih =>
    show decVal (if m % 10 = 0 then normFloat (m / 10) e else (m, e + 1)) = _
    by_cases hm : m % 10 = 0
    · rw [if_pos hm, ih]
      obtain ⟨q, rfl⟩ := Int.dvd_of_emod_eq_zero hm
      rw [Int.mul_ediv_cancel_left q (by norm_num : (10 : ℤ) ≠ 0)]
      unfold decVal
      push_cast
      rw [pow_succ]
      field_simp
      ring
    · rw [if_neg hm]

theorem floatDec_val (m : ℤ) (e : ℕ) : decVal (floatDec m e) = decVal (m, e) := by
  unfold floatDec
  rcases hnf : normFloat m e with ⟨m', e'⟩
  have hval : decVal (m', e') = decVal (m, e) := by rw [← hnf, normFloat_val]
  cases e' with
  | zero =>
    show decVal (m' * 10, 1) = _
    rw [← hval]
    unfold decVal
    push_cast
    field_simp
  | succ n => exact hval

theorem isNum_of_isInt {s : String} (h : isIntCell s = true) : isNumCell s = true := by
  unfold isIntCell at h
  rw [Bool.and_eq_true] at h
  exact h.1

theorem not_dot_of_isInt {s : String} (h : isIntCell s = true) : '.' ∉ s.data := by
  unfold isIntCell at h
  rw [Bool.and_eq_true] at h
  exact of_decide_eq_true h.2

theorem coerceNum_renderCell_mem (cells : List String) (s : String) (hs : s ∈ cells) :
    coerceNum (renderCell (columnDtype cells) s).data = coerceNum s.data := by
  unfold renderCell
  cases hp : parseDec s.data with
  | none => rfl
  | some me =>
    obtain ⟨m, e⟩ := me
    unfold columnDtype
    by_cases hnum : cells.all isNumCell = true
    · rw [if_pos hnum]
      by_cases hint : cells.all isIntCell = true
      · rw [if_pos hint]
        have hsint : isIntCell s = true := List.all_eq_true.mp hint s hs
        have he0 : e = 0 := parseDec_no_dot (not_dot_of_isInt hsint) hp
        subst he0
        show coerceNum (renderDec (m, 0)) = coerceNum s.data
        rw [coerceNum_renderDec, coerceNum_of_parseDec hp]
      · rw [if_neg hint]
        show coerceNum (renderDec (floatDec m e)) = coerceNum s.data
        rw [coerceNum_renderDec, floatDec_val, coerceNum_of_parseDec hp]
    · rw [if_neg hnum]

theorem renderCell_stable (cells : List String) (hst : stableStrColumn cells)
    (B : List String) (hB : ∀ x ∈ B, x ∈ cells) (s : String) (hs : s ∈ B) :
    renderCell (columnDtype B) s = renderCell (columnDtype cells) s := by
  rcases hst with h1 | h2 | h3
  · have hBdt : columnDtype B = .obj := by
      unfold columnDtype
      rw [if_neg]
      intro hall
      have := List.all_eq_true.mp hall s hs
      rw [h1 s (hB s hs)] at this
      exact absurd this (by decide)
    have hCdt : columnDtype cells = .obj := by
      unfold columnDtype
      rw [if_neg]
      intro hall
      have := List.all_eq_true.mp hall s (hB s hs)
      rw [h1 s (hB s hs)] at this
      exact absurd this (by decide)
    rw [hBdt, hCdt]
  · have hBdt : columnDtype B = .int64 := by
      unfold columnDtype
      rw [if_pos (List.all_eq_true.mpr fun x hx => isNum_of_isInt (h2 x (hB x hx))),
        if_pos (List.all_eq_true.mpr fun x hx => h2 x (hB x hx))]
    have hCdt : columnDtype cells = .int64 := by
      unfold columnDtype
      rw [if_pos (List.all_eq_true.mpr fun x hx => isNum_of_isInt (h2 x hx)),
        if_pos (List.all_eq_true.mpr fun x hx => h2 x hx)]
    rw [hBdt, hCdt]
  · have hsfloat : isIntCell s = false := by
      unfold isIntCell
      rw [decide_eq_false fun hn => hn (h3 s (hB s hs)).2]
      simp
    have hBdt : columnDtype B = .float64 := by
      unfold columnDtype
      rw [if_pos (List.all_eq_true.mpr fun x hx => (h3 x (hB x hx)).1), if_neg]
      intro hall
      have := List.all_eq_true.mp hall s hs
      rw [hsfloat] at this
      exact absurd this (by decide)
    have hCdt : columnDtype cells = .float64 := by
      unfold columnDtype
      rw [if_pos (List.all_eq_true.mpr fun x hx => (h3 x hx).1), if_neg]
      intro hall
      have := List.all_eq_true.mp hall s (hB s hs)
      rw [hsfloat] at this
      exact absurd this (by decide)
    rw [hBdt, hCdt]

theorem chunkList_flatten (k : ℕ) (l : List α) : (chunkList k l).flatten = l := by
  induction l using chunkList.induct k with
  | case1 => rw [chunkList]; rfl
  | case2 a l' ih =>
    rw [chunkList, List.flatten_cons, ih, List.take_append_drop]

theorem mem_of_mem_chunkList {k : ℕ} {l : List α} {ch : List α}
    (hch : ch ∈ chunkList k l) {x : α} (hx : x ∈ ch) : x ∈ l := by
  rw [← chunkList_flatten k l]
  exact List.mem_flatten.mpr ⟨ch, hch, hx⟩

theorem mem_dedupF {x : String} {l : List String} : x ∈ dedupF l ↔ x ∈ l := by
  induction l with
  | nil => simp [dedupF]
  | cons a l ih =>
    simp only [dedupF, List.mem_cons, List.mem_filter]
    constructor
    · rintro (rfl | ⟨h, _⟩)
      · exact Or.inl rfl
      · exact Or.inr (ih.mp h)
    · rintro (rfl | h)
      · exact Or.inl rfl
      · by_cases hx : x = a
        · exact Or.inl hx
        · exact Or.inr ⟨ih.mpr h, by simp [hx]⟩

theorem nodup_dedupF (l : List String) : (dedupF l).Nodup := by
  induction l with
  | nil => exact List.nodup_nil
  | cons a l ih =>
    refine List.Nodup.cons ?_ (List.Nodup.filter _ ih)
    intro h
    have := (List.mem_filter.mp h).2
    simp at this

theorem dedupF_append (a b : List String) :
    dedupF (a ++ b) = dedupF a ++ (dedupF b).filter (· ∉ a) := by
  induction a with
  | nil =>
    simp only [List.nil_append, dedupF]
    rw [List.filter_eq_self.mpr]
    intro x _
    simp
  | cons x a ih =>
    show x :: (dedupF (a ++ b)).filter (· ≠ x) =
      (x :: (dedupF a).filter (· ≠ x)) ++ (dedupF b).filter (· ∉ x :: a)
    rw [ih, List.filter_append, List.filter_filter, List.cons_append]
    congr 2
    apply List.filter_congr
    intro y _
    by_cases h1 : y = x <;> by_cases h2 : y ∈ a <;> simp [h1, h2]

theorem lookup_keyed_map (K : List String) (f : String → β) (key : String) :
    (K.map fun k => (k, f k)).lookup key = if key ∈ K then some (f key) else none := by
  induction K with
  | nil => simp
  | cons k K ih =>
    simp only [List.map_cons, List.lookup, List.mem_cons]
    by_cases h : key = k
    · subst h
      simp
    · have hbeq : (key == k) = false := by simp [h]
      simp only [hbeq, ih]
      by_cases hm : key ∈ K <;> simp [h, hm]

theorem map_fst_groupedSumF (keyf : List String → String)
    (valf : String → List String → ℚ) (S : List String) (rows : List (List String)) :
    (groupedSumF keyf valf S rows).map Prod.fst = dedupF (rows.map keyf) := by
  unfold groupedSumF
  rw [List.map_map]
  show List.map id (dedupF (rows.map keyf)) = dedupF (rows.map keyf)
  exact List.map_id _

theorem groupTotalF_append (keyf : List String → String) (valf : List String → ℚ)
    (key : String) (A B : List (List String)) :
    groupTotalF keyf valf key (A ++ B) =
      groupTotalF keyf valf key A + groupTotalF keyf valf key B := by
  unfold groupTotalF
  rw [List.filter_append, List.map_append, List.sum_append]

theorem groupTotalF_eq_zero (keyf : List String → String) (valf : List String → ℚ)
    (key : String) (A : List (List String)) (hkey : key ∉ A.map keyf) :
    groupTotalF keyf valf key A = 0 := by
  unfold groupTotalF
  have hnil : A.filter (fun r => keyf r = key) = [] := by
    rw [List.filter_eq_nil_iff]
    intro r hr
    simp only [decide_eq_true_eq]
    intro heq
    exact hkey (List.mem_map.mpr ⟨r, hr, heq⟩)
  rw [hnil]
  rfl

theorem zipWith_add_map (f₁ f₂ : String → ℚ) (l : List String) :
    List.zipWith (· + ·) (l.map f₁) (l.map f₂) = l.map fun x => f₁ x + f₂ x := by
  induction l with
  | nil => rfl
  | cons a l ih => simp [ih]

theorem lookupTotals_groupedSumF (keyf : List String → String)
    (valf : String → List String → ℚ) (S : List String)
    (A : List (List String)) (key : String) :
    lookupTotals (groupedSumF keyf valf S A) key S.length =
      S.map fun c => groupTotalF keyf (valf c) key A := by
  unfold lookupTotals groupedSumF
  rw [lookup_keyed_map]
  by_cases hk : key ∈ dedupF (A.map keyf)
  · rw [if_pos hk]
    rfl
  · rw [if_neg hk]
    simp only [Option.getD_none]
    have hz : ∀ c ∈ S, groupTotalF keyf (valf c) key A = 0 := fun c _ =>
      groupTotalF_eq_zero keyf (valf c) key A (fun hm => hk (mem_dedupF.mpr hm))
    symm
    rw [List.eq_replicate_iff]
    refine ⟨by simp, ?_⟩
    intro b hb
    obtain ⟨c, hc, rfl⟩ := List.mem_map.mp hb
    exact hz c hc

theorem mergeOuter_groupedSumF (keyf : List String → String)
    (valf : String → List String → ℚ) (S : List String)
    (A B : List (List String)) :
    mergeOuter S.length (groupedSumF keyf valf S A) (groupedSumF keyf valf S B) =
      groupedSumF keyf valf S (A ++ B) := by
  unfold mergeOuter
  simp only [map_fst_groupedSumF]
  have hK : (dedupF (B.map keyf)).filter
        (fun x => decide (x ∉ dedupF (A.map keyf))) =
      (dedupF (B.map keyf)).filter (fun x => decide (x ∉ A.map keyf)) := by
    apply List.filter_congr
    intro y _
    simp only [decide_not]
    congr 1
    exact decide_eq_decide.mpr mem_dedupF
  rw [hK]
  conv_rhs => rw [groupedSumF, List.map_append keyf A B, dedupF_append]
  apply List.map_congr_left
  intro key _
  rw [lookupTotals_groupedSumF, lookupTotals_groupedSumF, zipWith_add_map]
  refine congrArg _ (List.map_congr_left fun c _ => ?_)
  rw [groupTotalF_append]

theorem groupedSumF_congr (keyf₁ keyf₂ : List String → String)
    (valf₁ valf₂ : String → List String → ℚ) (S : List String)
    (rows : List (List String)) (hkey : ∀ r ∈ rows, keyf₁ r = keyf₂ r)
    (hval : ∀ c ∈ S, ∀ r ∈ rows, valf₁ c r = valf₂ c r) :
    groupedSumF keyf₁ valf₁ S rows = groupedSumF keyf₂ valf₂ S rows := by
  unfold groupedSumF
  rw [List.map_congr_left hkey]
  apply List.map_congr_left
  intro key _
  refine congrArg _ (List.map_congr_left fun c hc => ?_)
  unfold groupTotalF
  have hfil : rows.filter (fun r => keyf₁ r = key) =
      rows.filter (fun r => keyf₂ r = key) := by
    apply List.filter_congr
    intro r hr
    rw [hkey r hr]
  rw [hfil]
  refine congrArg _ (List.map_congr_left fun r hr => ?_)
  exact hval c hc r (List.mem_of_mem_filter hr)

theorem processChunksLoop_fixed (h : List String) (g : String) (S : List String)
    (hg : g ∈ h) (keyf : List String → String) (valf : String → List String → ℚ)
    (chs : List (List (List String))) (acc : List (List String))
    (hch : ∀ ch ∈ chs, groupedSum h g S ch = groupedSumF keyf valf S ch) :
    processChunksLoop h g S (some (groupedSumF keyf valf S acc)) chs =
      .ok (some (groupedSumF keyf valf S (acc ++ chs.flatten))) := by
  induction chs generalizing acc with
  | nil =>
    show Except.ok (some (groupedSumF keyf valf S acc)) = _
    rw [List.flatten_nil, List.append_nil]
  | cons c chs ih =>
    show (if g ∈ h then _ else Except.error (groupColChunkErr g)) = _
    rw [if_pos hg]
    show processChunksLoop h g S
      (some (mergeOuter S.length (groupedSumF keyf valf S acc) (groupedSum h g S c)))
      chs = _
    rw [hch c (List.mem_cons_self c chs), mergeOuter_groupedSumF,
      ih (acc ++ c) (fun ch hx => hch ch (List.mem_cons_of_mem c hx)),
      List.flatten_cons, List.append_assoc]

theorem processChunksLoop_isOk (h : List String) (g : String) (S : List String)
    (hg : g ∈ h) (chs : List (List (List String))) :
    ∀ res, ∃ out, processChunksLoop h g S res chs = .ok out := by
  induction chs with
  | nil => exact fun res => ⟨res, rfl⟩
  | cons c chs ih =>
    intro res
    cases res with
    | none =>
      obtain ⟨out, hout⟩ := ih (some (groupedSum h g S c))
      refine ⟨out, ?_⟩
      show (if g ∈ h then _ else Except.error (groupColChunkErr g)) = _
      rw [if_pos hg]
      exact hout
    | some r =>
      obtain ⟨out, hout⟩ := ih (some (mergeOuter S.length r (groupedSum h g S c)))
      refine ⟨out, ?_⟩
      show (if g ∈ h then _ else Except.error (groupColChunkErr g)) = _
      rw [if_pos hg]
      exact hout

theorem firstSome_attempt_none_iff (tryRead : String → String → Option Table)
    (l : List (String × String)) :
    firstSome (attempt tryRead) l = none ↔ ∀ p ∈ l, tryRead p.1 p.2 = none := by
  rw [firstSome_eq_none_iff]
  constructor
  · intro hall p hp
    have := hall p hp
    unfold attempt at this
    exact Option.map_eq_none'.mp this
  · intro hall p hp
    unfold attempt
    rw [hall p hp]
    rfl

theorem filterChunksLoop_fixed (h : List String) (c : String) (S : List String)
    (hc : c ∈ h) (p : List String → Bool) (m : List String → List String)
    (chs : List (List (List String)))
    (hch : ∀ ch ∈ chs, filterBlock h c S ch = (ch.filter p).map m) :
    ∃ kept, filterChunksLoop h c S chs = .ok kept ∧
      kept.flatten = (chs.flatten.filter p).map m := by
  induction chs with
  | nil => exact ⟨[], rfl, rfl⟩
  | cons chunk rest ih =>
    obtain ⟨acc, hacc, hflat⟩ := ih fun ch hx => hch ch (List.mem_cons_of_mem chunk hx)
    refine ⟨if filterBlock h c S chunk = [] then acc
        else filterBlock h c S chunk :: acc, ?_, ?_⟩
    · show (if c ∈ h then _ else Except.error (filterColChunkErr c)) = _
      rw [if_pos hc, hacc]
    · rw [List.flatten_cons, List.filter_append, List.map_append, ← hflat,
        ← hch chunk (List.mem_cons_self chunk rest)]
      by_cases hempty : filterBlock h c S chunk = []
      · rw [if_pos hempty, hempty, List.nil_append]
      · rw [if_neg hempty, List.flatten_cons]

theorem sum_map_zero (l : List (List String)) : (l.map fun _ => (0 : ℚ)).sum = 0 := by
  induction l with
  | nil => rfl
  | cons a l ih => simp [ih]

theorem groupTotal_zero_of_not_col (h : List String) (g c key : String)
    (rows : List (List String)) (hcol : c ∉ h) :
    groupTotal h g c key rows = 0 := by
  unfold groupTotal groupTotalF
  rw [List.map_congr_left (fun r _ => show numValB h c rows r = 0 by
    unfold numValB; rw [if_neg hcol])]
  exact sum_map_zero _

theorem leChars_total (as bs : List Char) :
    leChars as bs = true ∨ leChars bs as = true := by
  induction as generalizing bs with
  | nil => exact Or.inl rfl
  | cons a as ih =>
    cases bs with
    | nil => exact Or.inr rfl
    | cons b bs =>
      by_cases h1 : a.toNat < b.toNat
      · left
        simp [leChars, h1]
      · by_cases h2 : b.toNat < a.toNat
        · right
          simp [leChars, h2]
        · rcases ih bs with h | h
          · left
            simp [leChars, h1, h2, h]
          · right
            simp [leChars, h1, h2, h]

theorem leChars_trans (as bs cs : List Char) (hab : leChars as bs = true)
    (hbc : leChars bs cs = true) : leChars as cs = true := by
  induction as generalizing bs cs with
  | nil => rfl
  | cons a as ih =>
    cases bs with
    | nil => exact absurd hab (by simp [leChars])
    | cons b bs =>
      cases cs with
      | nil => exact absurd hbc (by simp [leChars])
      | cons c cs =>
        simp only [leChars] at hab hbc ⊢
        by_cases h1 : a.toNat < b.toNat
        · by_cases h3 : b.toNat < c.toNat
          · rw [if_pos (by omega)]
          · by_cases h4 : c.toNat < b.toNat
            · rw [if_neg h3, if_pos h4] at hbc
              exact absurd hbc (by simp)
            · rw [if_pos (by omega)]
        · by_cases h2 : b.toNat < a.toNat
          · rw [if_neg h1, if_pos h2] at hab
            exact absurd hab (by simp)
          · by_cases h3 : b.toNat < c.toNat
            · rw [if_pos (by omega)]
            · by_cases h4 : c.toNat < b.toNat
              · rw [if_neg h3, if_pos h4] at hbc
                exact absurd hbc (by simp)
              · rw [if_neg h1, if_neg h2] at hab
                rw [if_neg h3, if_neg h4] at hbc
                rw [if_neg (show ¬ a.toNat < c.toNat by omega),
                  if_neg (show ¬ c.toNat < a.toNat by omega)]
                exact ih bs cs hab hbc

instance strLe_isTotal : IsTotal String strLe :=
  ⟨fun a b => leChars_total a.data b.data⟩

instance strLe_isTrans : IsTrans String strLe :=
  ⟨fun a b c => leChars_trans a.data b.data c.data⟩

theorem getCell_map (hs : List String) (f : String → String) {c : String}
    (hc : c ∈ hs) : getCell hs (hs.map f) c = f c := by
  unfold getCell
  rw [if_pos hc]
  have hlt : hs.indexOf c < hs.length := List.indexOf_lt_length.mpr hc
  rw [List.getD_eq_getElem _ _ (by simpa using hlt)]
  rw [List.getElem_map]
  exact congrArg f (List.getElem_indexOf hlt)

theorem filterMap_id_map_some (ts : List Table) : (ts.map some).filterMap id = ts := by
  induction ts with
  | nil => rfl
  | cons t ts ih => simp [ih]

theorem flatMap_single (f : ℕ → ℕ) (l : List ℕ) :
    l.flatMap (fun x => [f x]) = l.map f := by
  induction l with
  | nil => rfl
  | cons a l ih => simp [List.flatMap_cons, ih]

theorem pairwise_le_map_range (f : ℕ → ℕ) (hm : ∀ i j, i ≤ j → f i ≤ f j) (n : ℕ) :
    ((List.range n).map f).Pairwise (· ≤ ·) :=
  List.Pairwise.map f (fun a b hab => hm a b (le_of_lt hab)) (List.pairwise_lt_range n)

theorem mem_collectColumnsTrace {total x : ℕ} (hx : x ∈ collectColumnsTrace total) :
    10 ≤ x ∧ x < 30 := by
  unfold collectColumnsTrace at hx
  obtain ⟨i, hi, rfl⟩ := List.mem_map.mp hx
  rw [List.mem_range] at hi
  have hdiv : i * 20 / total < 20 := Nat.div_lt_of_lt_mul (by omega)
  generalize i * 20 / total = q at hdiv ⊢
  omega

theorem mem_doMergeTrace {x : ℕ} {chunked : Bool} {cs : List ℕ}
    (hx : x ∈ doMergeTrace cs.length chunked cs) : 30 ≤ x ∧ x ≤ 90 := by
  unfold doMergeTrace at hx
  rw [List.mem_flatMap] at hx
  obtain ⟨i, hi, hx⟩ := hx
  rw [List.mem_range] at hi
  have hdiv : i * 60 / cs.length < 60 := Nat.div_lt_of_lt_mul (by omega)
  rw [List.mem_cons] at hx
  generalize i * 60 / cs.length = q at hdiv hx
  rcases hx with rfl | hx
  · omega
  · cases chunked with
    | false => simp at hx
    | true =>
      rw [if_pos rfl] at hx
      obtain ⟨j, _, rfl⟩ := List.mem_map.mp hx
      exact ⟨le_min (by omega) (by omega), min_le_left _ _⟩

theorem doMergeTrace_unchunked (total : ℕ) (cs : List ℕ) :
    doMergeTrace total false cs =
      (List.range cs.length).map fun i => 30 + i * 60 / total := by
  show (List.range cs.length).flatMap (fun i => [30 + i * 60 / total]) = _
  exact flatMap_single _ _

theorem collectColumnsTrace_monotone (total : ℕ) :
    (collectColumnsTrace total).Pairwise (· ≤ ·) := by
  unfold collectColumnsTrace
  apply pairwise_le_map_range
  intro i j hij
  have hdd : i * 20 / total ≤ j * 20 / total :=
    Nat.div_le_div_right (Nat.mul_le_mul_right 20 hij)
  exact Nat.add_le_add_left hdd 10

theorem doMergeTrace_unchunked_monotone (cs : List ℕ) :
    (doMergeTrace cs.length false cs).Pairwise (· ≤ ·) := by
  rw [doMergeTrace_unchunked]
  apply pairwise_le_map_range
  intro i j hij
  exact Nat.add_le_add_left (Nat.div_le_div_right (Nat.mul_le_mul_right 60 hij)) 30

theorem mem_mergeTrace_bounds (cs : List ℕ) (chunked : Bool) :
    ∀ x ∈ mergeTrace cs chunked, 5 ≤ x ∧ x ≤ 95 := by
  intro x hx
  unfold mergeTrace at hx
  rcases List.mem_cons.mp hx with rfl | hx
  · omega
  rcases List.mem_cons.mp hx with rfl | hx
  · omega
  rcases List.mem_append.mp hx with h | h
  · have := mem_collectColumnsTrace h
    omega
  rcases List.mem_cons.mp h with rfl | h
  · omega
  rcases List.mem_append.mp h with h2 | h2
  · have := mem_doMergeTrace h2
    omega
  · rw [List.mem_singleton] at h2
    omega

theorem mergeTrace_unchunked_monotone (cs : List ℕ) :
    (mergeTrace cs false).Pairwise (· ≤ ·) := by
  have hge10 : ∀ y ∈ collectColumnsTrace cs.length ++
      30 :: (doMergeTrace cs.length false cs ++ [95]), 10 ≤ y := by
    intro y hy
    rcases List.mem_append.mp hy with h | h
    · exact (mem_collectColumnsTrace h).1
    rcases List.mem_cons.mp h with rfl | h
    · omega
    rcases List.mem_append.mp h with h2 | h2
    · have := mem_doMergeTrace h2
      omega
    · rw [List.mem_singleton] at h2
      omega
  unfold mergeTrace
  refine List.Pairwise.cons ?_ (List.Pairwise.cons hge10 ?_)
  · intro y hy
    rcases List.mem_cons.mp hy with rfl | hy
    · omega
    · have := hge10 y hy
      omega
  rw [List.pairwise_append]
  refine ⟨collectColumnsTrace_monotone _, ?_, ?_⟩
  · refine List.Pairwise.cons ?_ ?_
    · intro y hy
      rcases List.mem_append.mp hy with h | h
      · exact (mem_doMergeTrace h).1
      · rw [List.mem_singleton] at h
        omega
    · rw [List.pairwise_append]
      refine ⟨doMergeTrace_unchunked_monotone cs, by simp, ?_⟩
      intro x hx y hy
      rw [List.mem_singleton] at hy
      subst hy
      have := mem_doMergeTrace hx
      omega
  · intro x hx y hy
    have hxb := mem_collectColumnsTrace hx
    rcases List.mem_cons.mp hy with rfl | hy
    · omega
    rcases List.mem_append.mp hy with h | h
    · have := mem_doMergeTrace h
      omega
    · rw [List.mem_singleton] at h
      omega

theorem mem_summarizeChunkedTrace (n : ℕ) (d : Bool) :
    ∀ x ∈ summarizeChunkedTrace n d, 5 ≤ x ∧ x ≤ 96 := by
  intro x hx
  unfold summarizeChunkedTrace at hx
  rcases List.mem_cons.mp hx with rfl | hx
  · omega
  rcases List.mem_cons.mp hx with rfl | hx
  · omega
  rcases List.mem_append.mp hx with h | h
  · obtain ⟨j, -, rfl⟩ := List.mem_map.mp h
    exact ⟨le_min (by omega) (by omega), le_trans (min_le_left _ _) (by omega)⟩
  · cases d with
    | false => simp at h
    | true =>
      rw [if_pos rfl, List.mem_singleton] at h
      omega

theorem summarizeChunkedTrace_monotone (n : ℕ) (d : Bool) :
    (summarizeChunkedTrace n d).Pairwise (· ≤ ·) := by
  have hM : ∀ x ∈ (List.range n).map (fun j => min 90 (10 + (j + 1) * 5)),
      10 ≤ x ∧ x ≤ 90 := by
    intro x hx
    obtain ⟨j, -, rfl⟩ := List.mem_map.mp hx
    exact ⟨le_min (by omega) (by omega), min_le_left _ _⟩
  have hT : ∀ x ∈ (if d then [96] else ([] : List ℕ)), x = 96 := by
    cases d with
    | false => intro x hx; simp at hx
    | true =>
      intro x hx
      rw [if_pos rfl, List.mem_singleton] at hx
      exact hx
  unfold summarizeChunkedTrace
  refine List.Pairwise.cons ?_ (List.Pairwise.cons ?_ ?_)
  · intro y hy
    rcases List.mem_cons.mp hy with rfl | hy
    · omega
    rcases List.mem_append.mp hy with h | h
    · exact le_trans (by omega) (hM y h).1
    · rw [hT y h]
      omega
  · intro y hy
    rcases List.mem_append.mp hy with h | h
    · exact (hM y h).1
    · rw [hT y h]
      omega
  rw [List.pairwise_append]
  refine ⟨?_, ?_, ?_⟩
  · apply pairwise_le_map_range
    intro i j hij
    exact min_le_min (le_refl 90) (by omega)
  · cases d <;> simp
  · intro x hx y hy
    rw [hT y hy]
    exact le_trans (hM x hx).2 (by omega)

theorem mem_filterChunkedTrace (n : ℕ) :
    ∀ x ∈ filterChunkedTrace n, 5 ≤ x ∧ x ≤ 95 := by
  intro x hx
  unfold filterChunkedTrace at hx
  rcases List.mem_cons.mp hx with rfl | hx
  · omega
  rcases List.mem_cons.mp hx with rfl | hx
  · omega
  rcases List.mem_cons.mp hx with rfl | hx
  · omega
  rcases List.mem_append.mp hx with h | h
  · obtain ⟨j, -, rfl⟩ := List.mem_map.mp h
    exact ⟨le_min (by omega) (by omega), le_trans (min_le_left _ _) (by omega)⟩
  · rw [List.mem_singleton] at h
    omega

theorem filterChunkedTrace_monotone (n : ℕ) :
    (filterChunkedTrace n).Pairwise (· ≤ ·) := by
  have hM : ∀ x ∈ (List.range n).map (fun j => min 90 (30 + (j + 1) * 3)),
      30 ≤ x ∧ x ≤ 90 := by
    intro x hx
    obtain ⟨j, -, rfl⟩ := List.mem_map.mp hx
    exact ⟨le_min (by omega) (by omega), min_le_left _ _⟩
  have htail : ∀ y ∈ ((List.range n).map fun j => min 90 (30 + (j + 1) * 3)) ++ [95],
      30 ≤ y := by
    intro y hy
    rcases List.mem_append.mp hy with h | h
    · exact (hM y h).1
    · rw [List.mem_singleton] at h
      omega
  unfold filterChunkedTrace
  refine List.Pairwise.cons ?_ (List.Pairwise.cons ?_ (List.Pairwise.cons htail ?_))
  · intro y hy
    rcases List.mem_cons.mp hy with rfl | hy
    · omega
    rcases List.mem_cons.mp hy with rfl | hy
    · omega
    · have := htail y hy
      omega
  · intro y hy
    rcases List.mem_cons.mp hy with rfl | hy
    · omega
    · have := htail y hy
      omega
  rw [List.pairwise_append]
  refine ⟨?_, by simp, ?_⟩
  · apply pairwise_le_map_range
    intro i j hij
    exact min_le_min (le_refl 90) (by omega)
  · intro x hx y hy
    rw [List.mem_singleton] at hy
    subst hy
    exact le_trans (hM x hx).2 (by omega)

/-! ### The claims -/

/-- C6: with unspecified hints `read_csv_robust` tries the ordered Cartesian
product of the default encodings and delimiters (outer loop over encodings),
returns the first pair whose parse succeeds, falls back to utf-8 with comma
when every pair fails, and returns the sentinel `(none, none, none)` — the
sole result signalling total read failure — only when that last resort also
fails.  `"auto"` hints behave exactly like unspecified ones. -/
theorem read_cascade_first_success_sentinel (tryRead : String → String → Option Table) :
    (read_csv_robust tryRead (some "auto") (some "auto") =
      read_csv_robust tryRead none none)
    ∧ (∀ t e d,
        firstSome (attempt tryRead) (pairList defaultEncodings defaultDelimiters) =
          some (t, e, d) →
        read_csv_robust tryRead none none = (some t, some e, some d))
    ∧ ((∀ p ∈ pairList defaultEncodings defaultDelimiters, tryRead p.1 p.2 = none) →
        read_csv_robust tryRead none none =
          (match tryRead "utf-8" "," with
           | some t => (some t, some "utf-8", some ",")
           | none => (none, none, none)))
    ∧ (read_csv_robust tryRead none none = (none, none, none) ↔
        (∀ p ∈ pairList defaultEncodings defaultDelimiters, tryRead p.1 p.2 = none) ∧
          tryRead "utf-8" "," = none) := by
  refine ⟨rfl, ?_, ?_, ?_⟩
  · intro t e d hfs
    unfold read_csv_robust
    rw [show encodingsToTry none = defaultEncodings from rfl,
      show delimitersToTry none = defaultDelimiters from rfl,
      tryPairs_eq_firstSome, hfs]
  · intro hall
    unfold read_csv_robust
    rw [show encodingsToTry none = defaultEncodings from rfl,
      show delimitersToTry none = defaultDelimiters from rfl,
      tryPairs_eq_firstSome,
      (firstSome_attempt_none_iff tryRead _).mpr hall]
  · unfold read_csv_robust
    rw [show encodingsToTry none = defaultEncodings from rfl,
      show delimitersToTry none = defaultDelimiters from rfl,
      tryPairs_eq_firstSome]
    cases hfs : firstSome (attempt tryRead) (pairList defaultEncodings defaultDelimiters) with
    | some r =>
      obtain ⟨t, e, d⟩ := r
      constructor
      · intro heq
        exact Option.noConfusion (congrArg Prod.fst heq)
      · rintro ⟨hall, -⟩
        rw [(firstSome_attempt_none_iff tryRead _).mpr hall] at hfs
        exact Option.noConfusion hfs
    | none =>
      cases hlast : tryRead "utf-8" "," with
      | some t =>
        constructor
        · intro heq
          exact Option.noConfusion (congrArg Prod.fst heq)
        · rintro ⟨-, hnone⟩
          exact Option.noConfusion hnone
      | none =>
        constructor
        · intro _
          exact ⟨(firstSome_attempt_none_iff tryRead _).mp hfs, rfl⟩
        · intro _
          rfl

/-- Witness for C6: a parser succeeding only on (gbk, tab) makes the cascade
stop there, and a parser that always fails yields the sentinel. -/
theorem read_cascade_first_success_sentinel_witness :
    firstSome (attempt succeedOnGbkTab) (pairList defaultEncodings defaultDelimiters) =
      some (sampleSummaryTable, "gbk", "\t")
    ∧ read_csv_robust succeedOnGbkTab none none =
        (some sampleSummaryTable, some "gbk", some "\t")
    ∧ read_csv_robust (fun _ _ => none) none none = (none, none, none) := by
  refine ⟨by decide, ?_, ?_⟩
  · exact (read_cascade_first_success_sentinel succeedOnGbkTab).2.1
      sampleSummaryTable "gbk" "\t" (by decide)
  · exact ((read_cascade_first_success_sentinel fun _ _ => none).2.2.2).mpr
      ⟨fun p _ => rfl, rfl⟩

/-- C7: detection and reading never surface an exception: `detect_encoding`
returns gbk on an I/O failure or when confidence is below 0.7,
`detect_delimiter` returns comma on failure or when no candidate occurs in
the sampled lines, and `read_csv_robust` always returns a triple — either a
successful parse or the total-failure sentinel. -/
theorem detection_fallback_totality :
    detect_encoding none = some "gbk"
    ∧ (∀ enc conf, conf < 7/10 → detect_encoding (some (enc, conf)) = some "gbk")
    ∧ detect_delimiter none = ','
    ∧ (∀ l1 l2, (∀ d ∈ candidateDelims, countChar l1 d = 0 ∧ countChar l2 d = 0) →
        detect_delimiter (some (l1, l2)) = ',')
    ∧ (∀ tryRead e d,
        (∃ tb enc delim, read_csv_robust tryRead e d = (some tb, some enc, some delim))
        ∨ read_csv_robust tryRead e d = (none, none, none)) := by
  refine ⟨rfl, ?_, rfl, ?_, ?_⟩
  · intro enc conf hconf
    show (if conf < 7/10 then some "gbk"
      else (match enc with | some e => some e | none => none)) = some "gbk"
    rw [if_pos hconf]
  · intro l1 l2 hzero
    have hscore : ∀ d ∈ candidateDelims, delimScore l1 l2 d = 0 := by
      intro d hd
      obtain ⟨h1, h2⟩ := hzero d hd
      unfold delimScore
      rw [h1, h2]
      norm_num
    have hbest : bestBy (delimScore l1 l2) ',' [';', '\t', '|'] = ',' := by
      apply bestBy_eq_first_of_all_le
      intro c hc
      have hcmem : c ∈ candidateDelims := List.mem_cons_of_mem ',' hc
      rw [hscore c hcmem, hscore ',' (by decide)]
    show (if delimScore l1 l2 (bestBy (delimScore l1 l2) ',' [';', '\t', '|']) > 0
        then bestBy (delimScore l1 l2) ',' [';', '\t', '|'] else ',') = ','
    rw [hbest, hscore ',' (by decide)]
    rw [if_neg (lt_irrefl 0)]
  · intro tryRead e d
    unfold read_csv_robust
    cases tryPairs tryRead (encodingsToTry e) (delimitersToTry d) with
    | some r => exact Or.inl ⟨r.1, r.2.1, r.2.2, rfl⟩
    | none =>
      cases tryRead "utf-8" "," with
      | some t => exact Or.inl ⟨t, "utf-8", ",", rfl⟩
      | none => exact Or.inr rfl

/-- Witness for C7 at concrete inputs. -/
theorem detection_fallback_totality_witness :
    ((1 : ℚ)/2 < 7/10 ∧ detect_encoding (some (some "utf-8", 1/2)) = some "gbk")
    ∧ ((∀ d ∈ candidateDelims, countChar "abc" d = 0 ∧ countChar "xyz" d = 0)
        ∧ detect_delimiter (some ("abc", "xyz")) = ',')
    ∧ ((∃ tb enc delim, read_csv_robust succeedOnUtf8Comma none none =
          (some tb, some enc, some delim))
        ∨ read_csv_robust succeedOnUtf8Comma none none = (none, none, none)) :=
  ⟨⟨by norm_num, detection_fallback_totality.2.1 (some "utf-8") (1/2) (by norm_num)⟩,
   ⟨by decide, detection_fallback_totality.2.2.2.1 "abc" "xyz" (by decide)⟩,
   detection_fallback_totality.2.2.2.2 succeedOnUtf8Comma none none⟩

/-- C9: when the caller supplies explicit (non-auto) encoding and delimiter
hints and the requested pair fails to parse, `read_csv_robust` still attempts
the utf-8/comma last resort, so the returned pair can differ from the
requested one. -/
theorem explicit_hint_fallback_differs :
    read_csv_robust succeedOnUtf8Comma (some "gbk") (some ";") =
      (some sampleSummaryTable, some "utf-8", some ",")
    ∧ ¬("utf-8" = "gbk" ∧ "," = ";") :=
  ⟨by decide, by decide⟩

/-- C10: merging an empty list of input files returns a failure result (the
caught `IndexError` of `file_paths[0]`) instead of raising, and nothing is
written to the output. -/
theorem merge_files_empty_input :
    merge_files [] = ((false, "合并失败: list index out of range"), [])
    ∧ (merge_files []).1.1 = false ∧ (merge_files []).2 = [] :=
  ⟨rfl, rfl, rfl⟩

/-- C8: the numeric coercion (strip comma separators from the string form,
parse as a decimal, unparseable becomes zero) is idempotent — coercing the
string form of a coerced value gives the same number — and every cell that
does not parse after separator stripping is coerced to exactly zero. -/
theorem numeric_coercion_idempotent (l : List Char) :
    coerceNum (renderDec (coerceDec l)) = coerceNum l
    ∧ (parseDec (stripCommas l) = none → coerceNum l = 0) := by
  have hround : ∀ d : ℤ × ℕ, coerceNum (renderDec d) = decVal d := by
    intro d
    unfold coerceNum coerceDec
    rw [stripCommas_renderDec, parseDec_renderDec]
    rfl
  constructor
  · cases hp : parseDec (stripCommas l) with
    | none =>
      have hd : coerceDec l = (0, 0) := by unfold coerceDec; rw [hp]; rfl
      rw [hd, hround (0, 0)]
      unfold coerceNum
      rw [hd]
    | some d =>
      have hd : coerceDec l = d := by unfold coerceDec; rw [hp]; rfl
      rw [hd, hround d]
      unfold coerceNum
      rw [hd]
  · intro hp
    unfold coerceNum coerceDec
    rw [hp]
    show decVal (0, 0) = 0
    unfold decVal
    norm_num

/-- Witness for C8: the malformed cell `"1,2x"` coerces to zero, and coercing
the rendered form of the coerced value of `"1,200.50"` gives the same number
again. -/
theorem numeric_coercion_idempotent_witness :
    (parseDec (stripCommas "1,2x".data) = none ∧ coerceNum "1,2x".data = 0)
    ∧ coerceNum (renderDec (coerceDec "1,200.50".data)) = coerceNum "1,200.50".data :=
  ⟨⟨by decide, (numeric_coercion_idempotent "1,2x".data).2 (by decide)⟩,
   (numeric_coercion_idempotent "1,200.50".data).1⟩

/-- Unfolding equation of `chunkList` on a non-empty list. -/
theorem chunkList_cons_eq (k : ℕ) (l : List α) (hne : l ≠ []) :
    chunkList k l = l.take (max k 1) :: chunkList k (l.drop (max k 1)) := by
  cases l with
  | nil => exact absurd rfl hne
  | cons a l' => rw [chunkList]

/-- Step equation of `filterChunksLoop` when the filter column is present. -/
theorem filterChunksLoop_cons (h : List String) (c : String) (S : List String)
    (chunk : List (List String)) (rest : List (List (List String))) (hc : c ∈ h)
    (acc : List (List (List String)))
    (hacc : filterChunksLoop h c S rest = .ok acc) :
    filterChunksLoop h c S (chunk :: rest) =
      .ok (if filterBlock h c S chunk = [] then acc
           else filterBlock h c S chunk :: acc) := by
  show (if c ∈ h then _ else Except.error (filterColChunkErr c)) = _
  rw [if_pos hc, hacc]

/-- Filter-then-map over a constant block keeps every row when the repeated
row passes the predicate. -/
theorem filter_map_replicate_of_pos (p : α → Bool) (f : α → β) (a : α) (n : ℕ)
    (hp : p a = true) :
    ((List.replicate n a).filter p).map f = List.replicate n (f a) := by
  rw [List.filter_replicate, if_pos hp, List.map_replicate]

/-- C5: with a non-empty sum-column list, a grouping column absent from the
file (and hence from every chunk) makes both summarize modes fail with an
error naming that column, while a sum column absent from the file is
tolerated: the computation succeeds and that column's totals are all zero. -/
theorem summarize_missing_column_taxonomy (t : Table) (g : String)
    (S : List String) (k : ℕ) (hS : S ≠ []) :
    (g ∉ t.header →
      process_entire_file t g S = .error (groupColFileErr g)
      ∧ ∃ pre post, groupColFileErr g = pre ++ g ++ post)
    ∧ (g ∉ t.header → t.rows ≠ [] →
        process_in_chunks t g S k = .error (groupColChunkErr g)
        ∧ ∃ pre post, groupColChunkErr g = pre ++ g ++ post)
    ∧ (g ∈ t.header →
        process_entire_file t g S = .ok (groupedSum t.header g S t.rows)
        ∧ (∃ res, process_in_chunks t g S k = .ok res)
        ∧ ∀ c ∈ S, c ∉ t.header →
            ∀ key, groupTotal t.header g c key t.rows = 0) := by
  refine ⟨?_, ?_, ?_⟩
  · intro hg
    refine ⟨?_, "分组列 '", "' 不存在于文件中。", rfl⟩
    unfold process_entire_file
    rw [if_neg hg]
  · intro hg hrows
    refine ⟨?_, "分组列 '", "' 不存在于当前数据块中。", rfl⟩
    unfold process_in_chunks
    cases hr : t.rows with
    | nil => exact absurd hr hrows
    | cons r rest =>
      rw [chunkList]
      show (if g ∈ t.header then _ else Except.error (groupColChunkErr g)) = _
      rw [if_neg hg]
  · intro hg
    refine ⟨?_, ?_, ?_⟩
    · unfold process_entire_file
      rw [if_pos hg]
    · obtain ⟨out, hout⟩ := processChunksLoop_isOk t.header g S hg
        (chunkList k t.rows) none
      exact ⟨out, hout⟩
    · intro c _ hc key
      exact groupTotal_zero_of_not_col t.header g c key t.rows hc

/-- Witness for C5: a missing grouping column `xx` is fatal with a message
naming it; a missing sum column `missing` is tolerated with zero totals. -/
theorem summarize_missing_column_taxonomy_witness :
    ("xx" ∉ sampleSummaryTable.header ∧ (["cost"] : List String) ≠ [])
    ∧ (process_entire_file sampleSummaryTable "xx" ["cost"] =
        .error (groupColFileErr "xx")
       ∧ ∃ pre post, groupColFileErr "xx" = pre ++ "xx" ++ post)
    ∧ (process_entire_file sampleSummaryTable "dept" ["cost", "missing"] =
        .ok (groupedSum sampleSummaryTable.header "dept" ["cost", "missing"]
          sampleSummaryTable.rows)
       ∧ (∃ res, process_in_chunks sampleSummaryTable "dept" ["cost", "missing"] 2 =
          .ok res)
       ∧ ∀ c ∈ ["cost", "missing"], c ∉ sampleSummaryTable.header →
          ∀ key, groupTotal sampleSummaryTable.header "dept" c key
            sampleSummaryTable.rows = 0) :=
  ⟨⟨by decide, by decide⟩,
   (summarize_missing_column_taxonomy sampleSummaryTable "xx" ["cost"] 3
     (by decide)).1 (by decide),
   (summarize_missing_column_taxonomy sampleSummaryTable "dept" ["cost", "missing"] 2
     (by decide)).2.2 (by decide)⟩

/-- C4: the unified schema is the lexicographically sorted (duplicate-free)
union of the input tables' columns; every block is reindexed to exactly that
column sequence, every output row has one cell per unified column, a column
present in the row's source keeps its value, and a column missing from the
source is filled with the empty string. -/
theorem merge_schema_superset (tables : List Table) :
    List.Sorted strLe (collect_all_columns (tables.map some))
    ∧ (collect_all_columns (tables.map some)).Nodup
    ∧ (∀ col, col ∈ collect_all_columns (tables.map some) ↔
        ∃ t ∈ tables, col ∈ t.header)
    ∧ ∀ t ∈ tables,
        (merge_process_chunk (collect_all_columns (tables.map some)) t).header =
          collect_all_columns (tables.map some)
        ∧ ∀ r ∈ t.rows,
            ((collect_all_columns (tables.map some)).map fun col =>
              if col ∈ t.header then getCell t.header r col else "") ∈
              (merge_process_chunk (collect_all_columns (tables.map some)) t).rows
            ∧ ((collect_all_columns (tables.map some)).map fun col =>
                if col ∈ t.header then getCell t.header r col else "").length =
              (collect_all_columns (tables.map some)).length
            ∧ ∀ col ∈ collect_all_columns (tables.map some),
                getCell (collect_all_columns (tables.map some))
                  ((collect_all_columns (tables.map some)).map fun col =>
                    if col ∈ t.header then getCell t.header r col else "") col =
                  if col ∈ t.header then getCell t.header r col else "" := by
  refine ⟨List.sorted_insertionSort strLe _,
    ((List.perm_insertionSort _ _).nodup_iff).mpr (List.nodup_dedup _), ?_, ?_⟩
  · intro col
    unfold collect_all_columns
    rw [List.Perm.mem_iff (List.perm_insertionSort _ _), List.mem_dedup,
      List.mem_flatten, filterMap_id_map_some]
    constructor
    · rintro ⟨l, hl, hcol⟩
      obtain ⟨t, ht, rfl⟩ := List.mem_map.mp hl
      exact ⟨t, ht, hcol⟩
    · rintro ⟨t, ht, hcol⟩
      exact ⟨t.header, List.mem_map.mpr ⟨t, ht, rfl⟩, hcol⟩
  · intro t ht
    refine ⟨rfl, ?_⟩
    intro r hr
    exact ⟨List.mem_map.mpr ⟨r, hr, rfl⟩, List.length_map _ _,
      fun col hcol => getCell_map _ _ hcol⟩

/-- Witness for C4 at the spec's merge example: `[id, amount]` and
`[id, region]` unify to the sorted superset `[amount, id, region]`. -/
theorem merge_schema_superset_witness :
    collect_all_columns (sampleMergeTables.map some) = ["amount", "id", "region"]
    ∧ (⟨["id", "amount"], [["1", "10"]]⟩ : Table) ∈ sampleMergeTables
    ∧ (merge_process_chunk (collect_all_columns (sampleMergeTables.map some))
        ⟨["id", "amount"], [["1", "10"]]⟩).header =
      collect_all_columns (sampleMergeTables.map some) :=
  ⟨by decide, by decide,
   ((merge_schema_superset sampleMergeTables).2.2.2
     ⟨["id", "amount"], [["1", "10"]]⟩ (by decide)).1⟩

/-- C3 counterexample: in a chunked merge of two files whose first file has
7 chunks, the percentage sequence reaches 65 inside the first file and then
drops to 60 at the second file's base progress — the progress callback is
not monotonically non-decreasing as the claim states. -/
theorem merge_progress_decreases :
    ¬ (mergeTrace [7, 1] true).Pairwise (· ≤ ·) := by decide

/-- C3 amended: every percentage passed to the progress callback lies in
the range 0–100 (indeed 5–96), and the sequence is monotonically
non-decreasing for summarize and filter_data in both modes and for
unchunked merge_files runs; in a chunked multi-file merge the sequence may
decrease at a file boundary. -/
theorem progress_callback_amended :
    (∀ cs chunked, ∀ x ∈ mergeTrace cs chunked, 5 ≤ x ∧ x ≤ 95)
    ∧ (∀ d, (summarizeWholeTrace d).Pairwise (· ≤ ·)
        ∧ ∀ x ∈ summarizeWholeTrace d, 5 ≤ x ∧ x ≤ 96)
    ∧ (∀ n d, (summarizeChunkedTrace n d).Pairwise (· ≤ ·)
        ∧ ∀ x ∈ summarizeChunkedTrace n d, 5 ≤ x ∧ x ≤ 96)
    ∧ (filterWholeTrace.Pairwise (· ≤ ·) ∧ ∀ x ∈ filterWholeTrace, 5 ≤ x ∧ x ≤ 95)
    ∧ (∀ n, (filterChunkedTrace n).Pairwise (· ≤ ·)
        ∧ ∀ x ∈ filterChunkedTrace n, 5 ≤ x ∧ x ≤ 95)
    ∧ (∀ cs, (mergeTrace cs false).Pairwise (· ≤ ·)) :=
  ⟨mem_mergeTrace_bounds,
   fun d => ⟨by cases d <;> decide, by cases d <;> decide⟩,
   fun n d => ⟨summarizeChunkedTrace_monotone n d, mem_summarizeChunkedTrace n d⟩,
   ⟨by decide, by decide⟩,
   fun n => ⟨filterChunkedTrace_monotone n, mem_filterChunkedTrace n⟩,
   mergeTrace_unchunked_monotone⟩

/-- Witness for C3's amended claim at concrete runs. -/
theorem progress_callback_amended_witness :
    (60 ∈ mergeTrace [2, 1] true ∧ 5 ≤ 60 ∧ 60 ≤ 95)
    ∧ (filterChunkedTrace 2).Pairwise (· ≤ ·) :=
  ⟨⟨by decide, progress_callback_amended.1 [2, 1] true 60 (by decide)⟩,
   (progress_callback_amended.2.2.2.2.1 2).1⟩

end CsvProc

